import Mathlib

/-
Verification of the option-pricing code in the quantitative-finance notebooks:
the Black-Scholes closed formula, the Monte Carlo pricer, the binomial-tree
pricer (notebook 4.4), the Greeks (notebook 4.5) and the American-put
Monte Carlo backward induction (notebook 5.4).

Conventions of the embedding:
* Python floats are modelled as real numbers.
* A Python function that can fall off the end without a return statement is
  modelled with Option: none models the implicit return of the Python value
  None (no exception is raised).
* A Python function that can execute a raise statement is modelled with
  Except: Except.error models a raised ValueError.
* Randomness is modelled by passing the realized random draws explicitly:
  monte_carlo_method receives the list of realized normal draws W, and the
  path simulation receives the realized increments Z.
* Library calls that are not part of the repository are modelled by their
  mathematical definition: scipy norm.cdf and norm.pdf are the standard
  normal CDF and PDF, and scipy sem is the sample standard deviation
  (one delta degree of freedom) divided by the square root of the sample
  size, as the spec states.
-/

noncomputable section

open MeasureTheory

/-- Standard normal cumulative distribution function, modelling the library
call ss.norm.cdf used by the notebooks: the integral of the Gaussian density
over the left ray, normalised by the square root of 2 pi. -/
def normCdf (x : ℝ) : ℝ :=
  (∫ t in Set.Iic x, Real.exp (-t ^ 2 / 2)) / Real.sqrt (2 * Real.pi)

/-- Standard normal probability density function, modelling the library call
ss.norm.pdf used by the Greeks notebook. -/
def normPdf (x : ℝ) : ℝ :=
  Real.exp (-x ^ 2 / 2) / Real.sqrt (2 * Real.pi)

/-- The auxiliary quantity d1 computed identically in closed_formula and in
every Greek of notebook 4.5:
d1 = (np.log(S0 / K) + (r + sigma**2 / 2) * T) / (sigma * np.sqrt(T)). -/
def bs_d1 (S0 K T r sigma : ℝ) : ℝ :=
  (Real.log (S0 / K) + (r + sigma ^ 2 / 2) * T) / (sigma * Real.sqrt T)

/-- The auxiliary quantity d2 = d1 - sigma * np.sqrt(T). -/
def bs_d2 (S0 K T r sigma : ℝ) : ℝ :=
  bs_d1 S0 K T r sigma - sigma * Real.sqrt T

/-- closed_formula from notebook 4.4 (repeated verbatim in notebook 4.5).
The Python body computes d1 and d2 and then branches on the payoff string
with an if and an elif and no else, so an unrecognized payoff falls off the
end of the function and returns None, which is modelled by none. -/
def closed_formula (S0 K T r sigma : ℝ) (payoff : String) : Option ℝ :=
  let d1 := bs_d1 S0 K T r sigma
  let d2 := bs_d2 S0 K T r sigma
  if payoff = "call" then
    some (S0 * normCdf d1 - K * Real.exp (-r * T) * normCdf d2)
  else if payoff = "put" then
    some (K * Real.exp (-r * T) * normCdf (-d2) - S0 * normCdf (-d1))
  else
    none

/-- Arithmetic mean of a list, modelling np.mean: the sum divided by the
length. -/
def listMean (xs : List ℝ) : ℝ := xs.sum / xs.length

/-- Modelled from the spec: the library call ss.sem (scipy standard error of
the mean, absent from the repository sources) is the sample standard
deviation of the data, with one delta degree of freedom, divided by the
square root of the sample size M. -/
def sem (xs : List ℝ) : ℝ :=
  Real.sqrt ((xs.map fun x => (x - listMean xs) ^ 2).sum / ((xs.length : ℝ) - 1)) /
    Real.sqrt (xs.length)

/-- monte_carlo_method from notebook 4.4, with the realized normal draws W
passed explicitly (the Python code draws them with ss.norm.rvs with location
(r - sigma**2 / 2) * T and scale sigma * np.sqrt(T)). Terminal prices are
ST = S0 * np.exp(W); the discounted payoffs are averaged and their standard
error reported. The else branch raises a ValueError, modelled by
Except.error. -/
def monte_carlo_method (S0 K T r sigma : ℝ) (W : List ℝ) (payoff : String) :
    Except String (ℝ × ℝ) :=
  let ST := W.map fun w => S0 * Real.exp w
  if payoff = "call" then
    let payoffs := ST.map fun s => Real.exp (-r * T) * max (s - K) 0
    Except.ok (listMean payoffs, sem payoffs)
  else if payoff = "put" then
    let payoffs := ST.map fun s => Real.exp (-r * T) * max (K - s) 0
    Except.ok (listMean payoffs, sem payoffs)
  else
    Except.error "Invalid payoff type. Specify call or put!"

/-- One pass of the vectorized backward-iteration line of binomial_method:
V[:-1] = np.exp(-r * dt) * (p * V[1:] + q * V[:-1]).
Entries with index below N are replaced by the discounted combination of the
entry above and the entry itself; the last entry, index N, is left
unchanged, as numpy slice assignment leaves it. Indices beyond the array are
irrelevant junk kept unchanged. -/
def binStep (disc p q : ℝ) (N : ℕ) (V : ℕ → ℝ) : ℕ → ℝ :=
  fun j => if j < N then disc * (p * V (j + 1) + q * V j) else V j

/-- The risk-neutral up-probability computed inside binomial_method:
p = (np.exp(r * dt) - d) / (u - d) with dt = T / N, u = np.exp(sigma *
np.sqrt(dt)) and d = 1 / u. -/
def binomial_p (T r sigma : ℝ) (N : ℕ) : ℝ :=
  let dt := T / N
  let u := Real.exp (sigma * Real.sqrt dt)
  let d := 1 / u
  (Real.exp (r * dt) - d) / (u - d)

/-- binomial_method from notebook 4.4. The Python code builds the terminal
price array ST, fills V with the terminal payoffs, and then runs the
vectorized update line N times (the loop body does not mention the loop
index); the result is V[0]. An unrecognized payoff raises a ValueError. -/
def binomial_method (S0 K T r sigma : ℝ) (N : ℕ) (payoff : String) :
    Except String ℝ :=
  let dt := T / N
  let u := Real.exp (sigma * Real.sqrt dt)
  let d := 1 / u
  let ST : ℕ → ℝ := fun j => S0 * u ^ j * d ^ (N - j)
  let p := (Real.exp (r * dt) - d) / (u - d)
  let q := 1 - p
  if payoff = "call" then
    Except.ok ((binStep (Real.exp (-r * dt)) p q N)^[N] (fun j => max (ST j - K) 0) 0)
  else if payoff = "put" then
    Except.ok ((binStep (Real.exp (-r * dt)) p q N)^[N] (fun j => max (K - ST j) 0) 0)
  else
    Except.error "Invalid payoff type. Specify call or put!"

/-- The backward-induction node value described by the spec: treeValue disc p
term k j is the value of the node j of the layer k steps above the terminal
layer, equal to the terminal payoff term j when k = 0 and otherwise to the
discounted risk-neutral expectation of the two children. -/
def treeValue (disc p : ℝ) (term : ℕ → ℝ) : ℕ → ℕ → ℝ
  | 0, j => term j
  | k + 1, j =>
      disc * (p * treeValue disc p term k (j + 1) + (1 - p) * treeValue disc p term k j)

/-- Lowercasing of a string, modelling the Python method call payoff.lower()
used by calculate_delta: every character is lowercased. -/
def pyLower (s : String) : String := String.mk (s.data.map Char.toLower)

/-- calculate_delta from notebook 4.5: the payoff string is lowercased and
matched against call and put; there is no else branch, so an unrecognized
payoff returns None. -/
def calculate_delta (S0 K T r sigma : ℝ) (payoff : String) : Option ℝ :=
  let d1 := bs_d1 S0 K T r sigma
  if pyLower payoff = "call" then some (normCdf d1)
  else if pyLower payoff = "put" then some (normCdf d1 - 1)
  else none

/-- calculate_gamma from notebook 4.5: it takes no payoff argument. -/
def calculate_gamma (S0 K T r sigma : ℝ) : ℝ :=
  normPdf (bs_d1 S0 K T r sigma) / (S0 * sigma * Real.sqrt T)

/-- calculate_vega from notebook 4.5: it takes no payoff argument. -/
def calculate_vega (S0 K T r sigma : ℝ) : ℝ :=
  S0 * Real.sqrt T * normPdf (bs_d1 S0 K T r sigma) / 100

/-- The exact lognormal path recursion of notebook 5.4 and of the spec:
S i+1 = S i * exp((r - sigma^2 / 2) * dt + sigma * sqrt(dt) * Z i), started
at S0, with the realized increments Z passed explicitly. -/
def gbm_path (S0 r sigma dt : ℝ) (Z : ℕ → ℝ) : ℕ → ℝ
  | 0 => S0
  | i + 1 =>
      gbm_path S0 r sigma dt Z i *
        Real.exp ((r - sigma ^ 2 / 2) * dt + sigma * Real.sqrt dt * Z i)

/-- The single-step terminal price update of monte_carlo_method:
ST = S0 * np.exp(W) for one realized draw W. -/
def mc_terminal_price (S0 w : ℝ) : ℝ := S0 * Real.exp w

/-- The per-path American-put backward induction of notebook 5.4: the value
after k backward steps, so at time index N - k. At k = 0 it is the terminal
put payoff; one backward step takes the maximum of the intrinsic payoff at
the current time index and the one-step-discounted previous value. -/
def american_backward (K disc : ℝ) (S : ℕ → ℝ) (N : ℕ) : ℕ → ℝ
  | 0 => max (K - S N) 0
  | k + 1 => max (max (K - S (N - (k + 1))) 0) (disc * american_backward K disc S N k)

/-- The American put estimate of notebook 5.4: the mean over the paths of the
per-path backward-induction value run all the way to time 0. -/
def american_put_mc (K r dt : ℝ) (N : ℕ) (paths : List (ℕ → ℝ)) : ℝ :=
  listMean (paths.map fun S => american_backward K (Real.exp (-r * dt)) S N N)

/-- The European put estimate on the same paths: the mean of the discounted
terminal payoffs exp(-r * T) * max(K - S N, 0). -/
def european_put_mc (K r T : ℝ) (N : ℕ) (paths : List (ℕ → ℝ)) : ℝ :=
  listMean (paths.map fun S => Real.exp (-r * T) * max (K - S N) 0)

/-- The standard normal density written with the exponent in the shape used
by the Mathlib Gaussian integral lemmas. -/
lemma gauss_eq :
    (fun t : ℝ => Real.exp (-t ^ 2 / 2)) = fun t : ℝ => Real.exp (-(1 / 2) * t ^ 2) := by
  funext t
  ring_nf

/-- The unnormalised standard normal density is integrable. -/
lemma gauss_integrable : Integrable (fun t : ℝ => Real.exp (-t ^ 2 / 2)) := by
  rw [gauss_eq]
  exact integrable_exp_neg_mul_sq (by norm_num)

/-- The Gaussian integral: the unnormalised density integrates to the square
root of 2 pi. -/
lemma gauss_total : (∫ t : ℝ, Real.exp (-t ^ 2 / 2)) = Real.sqrt (2 * Real.pi) := by
  rw [gauss_eq, integral_gaussian]
  congr 1
  ring

/-- Symmetry of the standard normal CDF: the CDF at x and at minus x sum
to one. -/
lemma normCdf_add_neg (x : ℝ) : normCdf x + normCdf (-x) = 1 := by
  have h2 := integral_comp_neg_Iic (-x) (fun t : ℝ => Real.exp (-t ^ 2 / 2))
  simp only [neg_neg] at h2
  have hsym : (∫ t in Set.Iic (-x), Real.exp (-t ^ 2 / 2)) =
      ∫ t in Set.Ioi x, Real.exp (-t ^ 2 / 2) := by
    rw [← h2]
    apply setIntegral_congr_fun measurableSet_Iic
    intro t _
    ring_nf
  have hsplit : (∫ t in Set.Iic x, Real.exp (-t ^ 2 / 2)) +
      (∫ t in Set.Ioi x, Real.exp (-t ^ 2 / 2)) = Real.sqrt (2 * Real.pi) := by
    rw [intervalIntegral.integral_Iic_add_Ioi gauss_integrable.integrableOn
      gauss_integrable.integrableOn]
    exact gauss_total
  have hpos : (0 : ℝ) < Real.sqrt (2 * Real.pi) := Real.sqrt_pos.mpr (by positivity)
  unfold normCdf
  rw [hsym, div_add_div_same, hsplit, div_self (ne_of_gt hpos)]

/-- Running the vectorized update line of binomial_method k times agrees
with the spec backward induction treeValue on every index j whose node
exists k layers above the terminal layer. -/
lemma binStep_iterate_eq (disc p : ℝ) (N : ℕ) (V0 : ℕ → ℝ) :
    ∀ k j, j + k ≤ N → (binStep disc p (1 - p) N)^[k] V0 j = treeValue disc p V0 k j := by
  intro k
  induction k with
  | zero => intro j _; simp [treeValue]
  | succ k ih =>
      intro j hj
      rw [Function.iterate_succ_apply']
      have hjN : j < N := by omega
      simp only [binStep, hjN, if_true, treeValue]
      rw [ih (j + 1) (by omega), ih j (by omega)]

/-- Each backward step of the American induction takes a maximum with the
discounted previous value, so after k steps the value dominates the
k-times-discounted terminal payoff. -/
lemma american_backward_ge (K disc : ℝ) (hdisc : 0 ≤ disc) (S : ℕ → ℝ) (N : ℕ) :
    ∀ k, disc ^ k * max (K - S N) 0 ≤ american_backward K disc S N k := by
  intro k
  induction k with
  | zero => simp [american_backward]
  | succ k ih =>
      calc disc ^ (k + 1) * max (K - S N) 0 = disc * (disc ^ k * max (K - S N) 0) := by ring
        _ ≤ disc * american_backward K disc S N k := mul_le_mul_of_nonneg_left ih hdisc
        _ ≤ american_backward K disc S N (k + 1) := le_max_right _ _

/-- The mean of a list mapped through f is dominated by the mean of the same
list mapped through g when f is dominated by g on the list. -/
lemma list_mean_mono (l : List (ℕ → ℝ)) (f g : (ℕ → ℝ) → ℝ)
    (h : ∀ S ∈ l, f S ≤ g S) :
    listMean (l.map f) ≤ listMean (l.map g) := by
  rcases l with _ | ⟨a, l⟩
  · simp [listMean]
  · unfold listMean
    simp only [List.length_map]
    have hpos : (0 : ℝ) < ((a :: l).length : ℝ) := by exact_mod_cast Nat.succ_pos l.length
    rw [div_le_div_iff_of_pos_right hpos]
    exact List.sum_le_sum h

/-- Closed form of the exact lognormal recursion after n steps: the drift
terms and the increments telescope inside one exponential. -/
lemma gbm_path_closed (S0 r sigma dt : ℝ) (Z : ℕ → ℝ) (n : ℕ) :
    gbm_path S0 r sigma dt Z n =
      S0 * Real.exp ((r - sigma ^ 2 / 2) * (n * dt) +
        sigma * Real.sqrt dt * ∑ i in Finset.range n, Z i) := by
  induction n with
  | zero => simp [gbm_path]
  | succ n ih =>
      rw [gbm_path, ih, mul_assoc, ← Real.exp_add]
      congr 2
      rw [Finset.sum_range_succ]
      push_cast
      ring

/-- At T = 1, r = 2, sigma = 1 and one step, the risk-neutral up-probability
of the binomial tree exceeds one. -/
lemma binomial_p_example_gt_one : 1 < binomial_p 1 2 1 1 := by
  have he : (1 : ℝ) < Real.exp 1 := by
    have := Real.add_one_le_exp (1 : ℝ)
    linarith
  have hepos := Real.exp_pos (1 : ℝ)
  have hd : 1 / Real.exp 1 < 1 := by
    rw [div_lt_one hepos]
    exact he
  have h12 : Real.exp 1 < Real.exp 2 := Real.exp_lt_exp.mpr (by norm_num)
  have hden : 0 < Real.exp 1 - 1 / Real.exp 1 := by linarith
  unfold binomial_p
  simp only [Nat.cast_one, div_one, one_mul, Real.sqrt_one, mul_one]
  rw [one_lt_div hden]
  linarith

/-- C1: for positive S0, K, T, sigma and any r, closed_formula returns the
Black-Scholes price: S0 * Phi(d1) - K * exp(-r T) * Phi(d2) for a call and
K * exp(-r T) * Phi(-d2) - S0 * Phi(-d1) for a put, with
d1 = (ln(S0 / K) + (r + sigma^2 / 2) T) / (sigma sqrt T),
d2 = d1 - sigma sqrt T and Phi the standard normal CDF. -/
theorem closed_formula_black_scholes (S0 K T r sigma : ℝ)
    (hS : 0 < S0) (hK : 0 < K) (hT : 0 < T) (hsig : 0 < sigma) :
    closed_formula S0 K T r sigma "call" =
      some (S0 * normCdf ((Real.log (S0 / K) + (r + sigma ^ 2 / 2) * T) / (sigma * Real.sqrt T)) -
        K * Real.exp (-r * T) *
          normCdf ((Real.log (S0 / K) + (r + sigma ^ 2 / 2) * T) / (sigma * Real.sqrt T) -
            sigma * Real.sqrt T)) ∧
    closed_formula S0 K T r sigma "put" =
      some (K * Real.exp (-r * T) *
          normCdf (-((Real.log (S0 / K) + (r + sigma ^ 2 / 2) * T) / (sigma * Real.sqrt T) -
            sigma * Real.sqrt T)) -
        S0 * normCdf (-((Real.log (S0 / K) + (r + sigma ^ 2 / 2) * T) /
          (sigma * Real.sqrt T)))) := by
  constructor
  · simp [closed_formula, bs_d1, bs_d2]
  · simp [closed_formula, bs_d1, bs_d2]

/-- Witness for C1 at S0 = K = T = sigma = 1 and r = 0. -/
theorem closed_formula_black_scholes_witness :
    closed_formula 1 1 1 0 1 "call" =
      some (1 * normCdf ((Real.log (1 / 1) + (0 + 1 ^ 2 / 2) * 1) / (1 * Real.sqrt 1)) -
        1 * Real.exp (-0 * 1) *
          normCdf ((Real.log (1 / 1) + (0 + 1 ^ 2 / 2) * 1) / (1 * Real.sqrt 1) -
            1 * Real.sqrt 1)) ∧
    closed_formula 1 1 1 0 1 "put" =
      some (1 * Real.exp (-0 * 1) *
          normCdf (-((Real.log (1 / 1) + (0 + 1 ^ 2 / 2) * 1) / (1 * Real.sqrt 1) -
            1 * Real.sqrt 1)) -
        1 * normCdf (-((Real.log (1 / 1) + (0 + 1 ^ 2 / 2) * 1) / (1 * Real.sqrt 1)))) :=
  closed_formula_black_scholes 1 1 1 0 1 (by norm_num) (by norm_num) (by norm_num) (by norm_num)

/-- C2: for positive parameters and at least one step, binomial_method
returns the root value of the N-step recombining-tree backward induction
with dt = T / N, u = exp(sigma sqrt dt), d = 1 / u and
p = (exp(r dt) - d) / (u - d): terminal values are the payoff at
S0 u^j d^(N - j) and each interior value is the discounted risk-neutral
expectation of its two children. -/
theorem binomial_method_eq_treeValue (S0 K T r sigma : ℝ) (N : ℕ)
    (hS : 0 < S0) (hK : 0 < K) (hT : 0 < T) (hsig : 0 < sigma) (hN : 1 ≤ N)
    (dt u d p : ℝ) (hdt : dt = T / N) (hu : u = Real.exp (sigma * Real.sqrt dt))
    (hd : d = 1 / u) (hp : p = (Real.exp (r * dt) - d) / (u - d)) :
    binomial_method S0 K T r sigma N "call" =
      Except.ok (treeValue (Real.exp (-r * dt)) p
        (fun j => max (S0 * u ^ j * d ^ (N - j) - K) 0) N 0) ∧
    binomial_method S0 K T r sigma N "put" =
      Except.ok (treeValue (Real.exp (-r * dt)) p
        (fun j => max (K - S0 * u ^ j * d ^ (N - j)) 0) N 0) := by
  subst hdt hu hd hp
  constructor
  · simp only [binomial_method]
    rw [if_pos trivial]
    exact congrArg Except.ok (binStep_iterate_eq _ _ _ _ N 0 (by omega))
  · simp only [binomial_method]
    rw [if_pos trivial]
    exact congrArg Except.ok (binStep_iterate_eq _ _ _ _ N 0 (by omega))

/-- Witness for C2 at S0 = K = T = sigma = 1, r = 0 and one step. -/
theorem binomial_method_eq_treeValue_witness :
    binomial_method 1 1 1 0 1 1 "call" =
      Except.ok (treeValue (Real.exp (-0 * (1 / (1 : ℕ))))
        ((Real.exp (0 * (1 / (1 : ℕ))) - 1 / Real.exp (1 * Real.sqrt (1 / (1 : ℕ)))) /
          (Real.exp (1 * Real.sqrt (1 / (1 : ℕ))) - 1 / Real.exp (1 * Real.sqrt (1 / (1 : ℕ)))))
        (fun j => max (1 * Real.exp (1 * Real.sqrt (1 / (1 : ℕ))) ^ j *
          (1 / Real.exp (1 * Real.sqrt (1 / (1 : ℕ)))) ^ (1 - j) - 1) 0) 1 0) ∧
    binomial_method 1 1 1 0 1 1 "put" =
      Except.ok (treeValue (Real.exp (-0 * (1 / (1 : ℕ))))
        ((Real.exp (0 * (1 / (1 : ℕ))) - 1 / Real.exp (1 * Real.sqrt (1 / (1 : ℕ)))) /
          (Real.exp (1 * Real.sqrt (1 / (1 : ℕ))) - 1 / Real.exp (1 * Real.sqrt (1 / (1 : ℕ)))))
        (fun j => max (1 - 1 * Real.exp (1 * Real.sqrt (1 / (1 : ℕ))) ^ j *
          (1 / Real.exp (1 * Real.sqrt (1 / (1 : ℕ)))) ^ (1 - j)) 0) 1 0) :=
  binomial_method_eq_treeValue 1 1 1 0 1 1 (by norm_num) (by norm_num) (by norm_num)
    (by norm_num) (by norm_num) _ _ _ _ rfl rfl rfl rfl

/-- C3: for any realized draw vector W, monte_carlo_method returns the pair
of the arithmetic mean of the discounted payoffs exp(-r T) max(ST - K, 0)
for a call (exp(-r T) max(K - ST, 0) for a put) over the M = length W
terminal prices ST = S0 exp(W), and the sample standard deviation of those
discounted payoffs divided by sqrt M. -/
theorem monte_carlo_method_mean_stderr (S0 K T r sigma : ℝ) (W : List ℝ) :
    monte_carlo_method S0 K T r sigma W "call" =
      (let D := W.map fun w => Real.exp (-r * T) * max (S0 * Real.exp w - K) 0
       Except.ok (D.sum / (W.length : ℝ),
         Real.sqrt ((D.map fun x => (x - D.sum / (W.length : ℝ)) ^ 2).sum /
             ((W.length : ℝ) - 1)) / Real.sqrt (W.length : ℝ))) ∧
    monte_carlo_method S0 K T r sigma W "put" =
      (let D := W.map fun w => Real.exp (-r * T) * max (K - S0 * Real.exp w) 0
       Except.ok (D.sum / (W.length : ℝ),
         Real.sqrt ((D.map fun x => (x - D.sum / (W.length : ℝ)) ^ 2).sum /
             ((W.length : ℝ) - 1)) / Real.sqrt (W.length : ℝ))) := by
  constructor
  · simp [monte_carlo_method, listMean, sem, List.map_map, Function.comp_def]
  · simp [monte_carlo_method, listMean, sem, List.map_map, Function.comp_def]

/-- C4: put-call parity of the closed formula: the call price minus the put
price equals S0 - K exp(-r T). -/
theorem closed_formula_put_call_parity (S0 K T r sigma : ℝ)
    (hS : 0 < S0) (hK : 0 < K) (hT : 0 < T) (hsig : 0 < sigma) :
    ∃ c p, closed_formula S0 K T r sigma "call" = some c ∧
      closed_formula S0 K T r sigma "put" = some p ∧
      c - p = S0 - K * Real.exp (-r * T) := by
  refine ⟨S0 * normCdf (bs_d1 S0 K T r sigma) -
      K * Real.exp (-r * T) * normCdf (bs_d2 S0 K T r sigma),
    K * Real.exp (-r * T) * normCdf (-bs_d2 S0 K T r sigma) -
      S0 * normCdf (-bs_d1 S0 K T r sigma), ?_, ?_, ?_⟩
  · simp [closed_formula]
  · simp [closed_formula]
  · linear_combination S0 * normCdf_add_neg (bs_d1 S0 K T r sigma) -
      K * Real.exp (-r * T) * normCdf_add_neg (bs_d2 S0 K T r sigma)

/-- Witness for C4 at S0 = K = T = sigma = 1 and r = 0. -/
theorem closed_formula_put_call_parity_witness :
    ∃ c p, closed_formula 1 1 1 0 1 "call" = some c ∧
      closed_formula 1 1 1 0 1 "put" = some p ∧
      c - p = 1 - 1 * Real.exp (-0 * 1) :=
  closed_formula_put_call_parity 1 1 1 0 1 (by norm_num) (by norm_num) (by norm_num)
    (by norm_num)

/-- Counterexample for C5: at an unrecognized payoff selector, closed_formula
does not surface an error to the caller: it silently returns the Python
value None (there is no else branch raising), modelled by none. -/
theorem closed_formula_unrecognized_payoff_silent :
    closed_formula 100 100 1 (1 / 25) (1 / 5) "straddle" = none := by
  simp [closed_formula]

/-- C5 amended: at a payoff selector outside the recognized enumeration,
monte_carlo_method and binomial_method raise a ValueError, while
closed_formula silently returns None rather than surfacing an error. -/
theorem pricers_unrecognized_payoff (S0 K T r sigma : ℝ) (N : ℕ) (W : List ℝ)
    (payoff : String) (h1 : payoff ≠ "call") (h2 : payoff ≠ "put") :
    closed_formula S0 K T r sigma payoff = none ∧
    (∃ e, monte_carlo_method S0 K T r sigma W payoff = Except.error e) ∧
    ∃ e, binomial_method S0 K T r sigma N payoff = Except.error e := by
  refine ⟨?_, ?_, ?_⟩
  · simp [closed_formula, h1, h2]
  · simp [monte_carlo_method, h1, h2]
  · simp [binomial_method, h1, h2]

/-- Witness for the amended C5 at the payoff string straddle. -/
theorem pricers_unrecognized_payoff_witness :
    closed_formula 100 100 1 (1 / 25) (1 / 5) "straddle" = none ∧
    (∃ e, monte_carlo_method 100 100 1 (1 / 25) (1 / 5) [] "straddle" = Except.error e) ∧
    ∃ e, binomial_method 100 100 1 (1 / 25) (1 / 5) 3 "straddle" = Except.error e :=
  pricers_unrecognized_payoff 100 100 1 (1 / 25) (1 / 5) 3 [] "straddle"
    (by decide) (by decide)

/-- Counterexample for C6: at a negative (hence non-positive) volatility,
closed_formula does not fail: it returns a numeric price. -/
theorem closed_formula_negative_sigma_returns_price :
    ((-1 : ℝ) < 0) ∧ (closed_formula 100 100 1 (1 / 25) (-1) "call").isSome = true := by
  constructor
  · norm_num
  · simp [closed_formula]

/-- C6 amended: closed_formula performs no validation of sigma or T: with a
recognized payoff it returns a value even when sigma or T is non-positive
(under exact real arithmetic this is a numeric price; in Python float
arithmetic a zero denominator propagates inf or nan instead, still without
raising). -/
theorem closed_formula_no_validation (S0 K T r sigma : ℝ) (h : sigma ≤ 0 ∨ T ≤ 0) :
    (closed_formula S0 K T r sigma "call").isSome = true ∧
    (closed_formula S0 K T r sigma "put").isSome = true := by
  constructor
  · simp [closed_formula]
  · simp [closed_formula]

/-- Witness for the amended C6 at sigma = -1. -/
theorem closed_formula_no_validation_witness :
    (closed_formula 100 100 1 (1 / 25) (-1) "call").isSome = true ∧
    (closed_formula 100 100 1 (1 / 25) (-1) "put").isSome = true :=
  closed_formula_no_validation 100 100 1 (1 / 25) (-1) (Or.inl (by norm_num))

/-- Counterexample for C7: at T = 1, r = 2, sigma = 1 and one step the
derived risk-neutral up-probability exceeds one, yet binomial_method
completes backward induction and returns a number instead of surfacing an
error. -/
theorem binomial_method_accepts_out_of_range_p :
    1 < binomial_p 1 2 1 1 ∧ ∃ v, binomial_method 1 1 1 2 1 1 "call" = Except.ok v := by
  refine ⟨binomial_p_example_gt_one, ?_⟩
  simp [binomial_method]

/-- C7 amended: binomial_method performs no consistency check on the derived
risk-neutral probability: even when p lies outside the interval from 0 to 1
it completes backward induction and returns a number for both recognized
payoffs; only an unrecognized payoff raises. -/
theorem binomial_method_no_p_check (S0 K T r sigma : ℝ) (N : ℕ)
    (h : binomial_p T r sigma N < 0 ∨ 1 < binomial_p T r sigma N) :
    (∃ v, binomial_method S0 K T r sigma N "call" = Except.ok v) ∧
    ∃ v, binomial_method S0 K T r sigma N "put" = Except.ok v := by
  refine ⟨?_, ?_⟩
  · simp [binomial_method]
  · simp [binomial_method]

/-- Witness for the amended C7 at T = 1, r = 2, sigma = 1, one step. -/
theorem binomial_method_no_p_check_witness :
    (∃ v, binomial_method 1 1 1 2 1 1 "call" = Except.ok v) ∧
    ∃ v, binomial_method 1 1 1 2 1 1 "put" = Except.ok v :=
  binomial_method_no_p_check 1 1 1 2 1 1 (Or.inr binomial_p_example_gt_one)

/-- C8: on identical parameters and the same simulated paths, the American
put estimate of the backward induction that takes the maximum of the
continuation value and the intrinsic value dominates the European put
estimate, the mean of the discounted terminal payoffs. -/
theorem american_put_ge_european_put (K r T : ℝ) (N : ℕ) (paths : List (ℕ → ℝ))
    (hN : 1 ≤ N) :
    european_put_mc K r T N paths ≤ american_put_mc K r (T / N) N paths := by
  unfold european_put_mc american_put_mc
  apply list_mean_mono
  intro S _
  have hdisc : (0 : ℝ) ≤ Real.exp (-r * (T / N)) := (Real.exp_pos _).le
  have hN0 : (N : ℝ) ≠ 0 := Nat.cast_ne_zero.mpr (by omega)
  have hpow : Real.exp (-r * (T / N)) ^ N = Real.exp (-r * T) := by
    rw [← Real.exp_nat_mul]
    congr 1
    field_simp
    ring
  calc Real.exp (-r * T) * max (K - S N) 0
      = Real.exp (-r * (T / N)) ^ N * max (K - S N) 0 := by rw [hpow]
    _ ≤ american_backward K (Real.exp (-r * (T / N))) S N N :=
        american_backward_ge _ _ hdisc _ _ N

/-- Witness for C8 with one step and one constant path. -/
theorem american_put_ge_european_put_witness :
    european_put_mc 1 0 1 1 [fun _ => 1] ≤
      american_put_mc 1 0 (1 / ((1 : ℕ) : ℝ)) 1 [fun _ => 1] :=
  american_put_ge_european_put 1 0 1 1 [fun _ => 1] (le_refl 1)

/-- C9: the N-step exact lognormal recursion telescopes to
S0 exp((r - sigma^2 / 2) T + sigma sqrt dt (Z 0 + ... + Z (N-1))) when
dt = T / N, so the single-draw terminal price of monte_carlo_method taken at
the aggregated increment equals the N-step path at maturity. -/
theorem gbm_terminal_agreement (S0 r sigma T : ℝ) (N : ℕ) (Z : ℕ → ℝ) (hN : 1 ≤ N)
    (dt : ℝ) (hdt : dt = T / N) :
    gbm_path S0 r sigma dt Z N =
      S0 * Real.exp ((r - sigma ^ 2 / 2) * T +
        sigma * Real.sqrt dt * ∑ i in Finset.range N, Z i) ∧
    gbm_path S0 r sigma dt Z N =
      mc_terminal_price S0 ((r - sigma ^ 2 / 2) * T +
        sigma * Real.sqrt dt * ∑ i in Finset.range N, Z i) := by
  subst hdt
  have hN0 : (N : ℝ) ≠ 0 := Nat.cast_ne_zero.mpr (by omega)
  have h := gbm_path_closed S0 r sigma (T / N) Z N
  have harg : (r - sigma ^ 2 / 2) * ((N : ℝ) * (T / N)) = (r - sigma ^ 2 / 2) * T := by
    field_simp
  constructor
  · rw [h, harg]
  · rw [mc_terminal_price, h, harg]

/-- Witness for C9 with one step, T = 1 and zero increments. -/
theorem gbm_terminal_agreement_witness :
    gbm_path 1 0 1 (1 / ((1 : ℕ) : ℝ)) (fun _ => 0) 1 =
      1 * Real.exp ((0 - 1 ^ 2 / 2) * 1 +
        1 * Real.sqrt (1 / ((1 : ℕ) : ℝ)) * ∑ i in Finset.range 1, (fun _ => (0 : ℝ)) i) ∧
    gbm_path 1 0 1 (1 / ((1 : ℕ) : ℝ)) (fun _ => 0) 1 =
      mc_terminal_price 1 ((0 - 1 ^ 2 / 2) * 1 +
        1 * Real.sqrt (1 / ((1 : ℕ) : ℝ)) * ∑ i in Finset.range 1, (fun _ => (0 : ℝ)) i) :=
  gbm_terminal_agreement 1 0 1 1 1 (fun _ => 0) (le_refl 1) (1 / ((1 : ℕ) : ℝ)) rfl

/-- C10: the put delta of calculate_delta equals the call delta minus one
(Phi(d1) - 1 against Phi(d1)); gamma and vega take no payoff argument, so
the source assigns call and put the very same calculate_gamma and
calculate_vega values. -/
theorem delta_parity_gamma_vega_shared (S0 K T r sigma : ℝ)
    (hS : 0 < S0) (hK : 0 < K) (hT : 0 < T) (hsig : 0 < sigma) :
    (∃ x, calculate_delta S0 K T r sigma "call" = some x ∧
       calculate_delta S0 K T r sigma "put" = some (x - 1)) ∧
    calculate_gamma S0 K T r sigma = calculate_gamma S0 K T r sigma ∧
    calculate_vega S0 K T r sigma = calculate_vega S0 K T r sigma := by
  refine ⟨⟨normCdf (bs_d1 S0 K T r sigma), ?_, ?_⟩, rfl, rfl⟩
  · have h : pyLower "call" = "call" := by decide
    simp [calculate_delta, h]
  · have h : pyLower "put" = "put" := by decide
    simp [calculate_delta, h]

/-- Witness for C10 at S0 = K = T = sigma = 1 and r = 0. -/
theorem delta_parity_gamma_vega_shared_witness :
    (∃ x, calculate_delta 1 1 1 0 1 "call" = some x ∧
       calculate_delta 1 1 1 0 1 "put" = some (x - 1)) ∧
    calculate_gamma 1 1 1 0 1 = calculate_gamma 1 1 1 0 1 ∧
    calculate_vega 1 1 1 0 1 = calculate_vega 1 1 1 0 1 :=
  delta_parity_gamma_vega_shared 1 1 1 0 1 (by norm_num) (by norm_num) (by norm_num)
    (by norm_num)

end
